import Mathlib

/-!
Verification development for the DOM node-range and location layer of the
xf-hq/ui repository.  DOM nodes are modelled as natural-number identifiers and
the child list of the single relevant parent element as a list of such
identifiers, in sibling order.  Each definition below mirrors one function of
the source (file and symbol named in its doc comment).
-/

/-- Identifier of a DOM node in the model. -/
abbrev DNode := Nat

/-- Child list of the parent element, in sibling order. -/
abbrev Dom := List DNode

/-- Helper for Element.insertBefore with a non-null reference node: inserts
before the first occurrence of the anchor.  When the anchor is not a child the
real DOM would throw; the model appends at the end instead, and this branch is
never reached in any run evaluated below where the anchor is a current child
or null. -/
def insertBeforeAux : Dom → DNode → DNode → Dom
  | [], n, _ => [n]
  | x :: xs, n, a => if x = a then n :: x :: xs else x :: insertBeforeAux xs n a

/-- Element.insertBefore on the parent: a null reference appends at the end,
otherwise the node is inserted immediately before the reference node. -/
def insertBefore (dom : Dom) (n : DNode) : Option DNode → Dom
  | none => dom ++ [n]
  | some a => insertBeforeAux dom n a

/-- Property nextSibling of a node, read from the child list: the entry
directly after its first occurrence, or null. -/
def nextSibling : Dom → DNode → Option DNode
  | [], _ => none
  | x :: xs, p => if x = p then xs.head? else nextSibling xs p

/-- Method node.remove(): deletes the first occurrence of the node from the
child list. -/
def removeNode (dom : Dom) (n : DNode) : Dom := dom.erase n

/-!
DOMLocationPointer, from src/source/dom (class DOMLocationPointer in the
dom-location-pointer module).  A Props.NodeRef is
ChildNode | ChildNodeGetter | null, and the props field itself may be absent
(undefined); getters are re-resolved against the current child list.
-/

/-- Value of a previousOuterSibling / nextOuterSibling entry of
DOMLocationPointer.Props: absent, null, a concrete node, or a getter. -/
inductive PropRef where
  | undef : PropRef
  | nullRef : PropRef
  | nodeRef : DNode → PropRef
  | getterRef : (Dom → Option DNode) → PropRef

/-- Function fromNodePointerProp: undefined becomes no getter; a function is
used as is; a node or null is wrapped in a constant getter. -/
def fromNodePointerProp : PropRef → Option (Dom → Option DNode)
  | .undef => none
  | .nullRef => some (fun _ => none)
  | .nodeRef n => some (fun _ => some n)
  | .getterRef g => some g

/-- Insertion strategy selected by DOMLocationPointer.from: the functions
appendBeforeNextOuterSibling, appendAfterPreviousSibling and
appendAsLastChild. -/
inductive AppendStrategy where
  | beforeNext : AppendStrategy
  | afterPrev : AppendStrategy
  | lastChild : AppendStrategy
deriving DecidableEq

/-- Class DOMLocationPointer: the stored previous / next outer sibling getters
(returnNull when absent) and the append strategy chosen at construction.  The
parent element is left implicit: the model tracks the child list of that one
parent. -/
structure DOMLocationPointer where
  getPreviousOuterSibling : Dom → Option DNode
  getNextOuterSibling : Dom → Option DNode
  strat : AppendStrategy

/-- Static method DOMLocationPointer.from applied to explicit props: a next
getter selects insert-before-next, else a previous getter selects
insert-after-previous, else append-as-last-child. -/
def DOMLocationPointer.fromProps (prev next : PropRef) : DOMLocationPointer :=
  let getPrev := fromNodePointerProp prev
  let getNext := fromNodePointerProp next
  { getPreviousOuterSibling := getPrev.getD (fun _ => none)
    getNextOuterSibling := getNext.getD (fun _ => none)
    strat :=
      if getNext.isSome then .beforeNext
      else if getPrev.isSome then .afterPrev
      else .lastChild }

/-- Static method DOMLocationPointer.from applied to a plain element: no
anchors, append-as-last-child. -/
def DOMLocationPointer.fromElement : DOMLocationPointer :=
  { getPreviousOuterSibling := fun _ => none
    getNextOuterSibling := fun _ => none
    strat := .lastChild }

/-- Method append(node): one insertion with the active strategy, getters
re-resolved against the current child list.  Mirrors
appendBeforeNextOuterSibling, appendAfterPreviousSibling and
appendAsLastChild. -/
def DOMLocationPointer.append (p : DOMLocationPointer) (dom : Dom) (n : DNode) : Dom :=
  match p.strat with
  | .lastChild => dom ++ [n]
  | .beforeNext => insertBefore dom n (p.getNextOuterSibling dom)
  | .afterPrev =>
    match p.getPreviousOuterSibling dom with
    | none => n :: dom
    | some prev =>
      match nextSibling dom prev with
      | none => dom ++ [n]
      | some nx => insertBefore dom n (some nx)

/-- Method appendEach(nodes): applies append to each node in order. -/
def DOMLocationPointer.appendEach (p : DOMLocationPointer) (dom : Dom) (ns : List DNode) : Dom :=
  ns.foldl (fun d n => p.append d n) dom

/-!
Dynamic List Reconciler, from src/source/dom/html-template.ts (classes
DynamicDOMController and DynamicDOMSegment).  Every range handed to the
controller in the runs below is a FromStaticNode range wrapping a single
node, so a segment stores that node directly.  Segment objects are kept in an
identity table keyed by a fresh counter, mirroring the mutable object graph.
-/

/-- Identifier of a DynamicDOMSegment object. -/
abbrev SegId := Nat

/-- Class DynamicDOMSegment: the wrapped FromStaticNode range (its one node)
and the doubly linked previous / next segment pointers. -/
structure Segment where
  node : DNode
  prev : Option SegId
  next : Option SegId
deriving DecidableEq, Repr

/-- State of a DynamicDOMController: the ordered segments array (by id), the
identity table of segment objects, a fresh-id counter, and the child list of
the parent element.  The controller location is a pointer built from a plain
element, so its previous and next outer siblings are both null. -/
structure CtrlState where
  segs : List SegId
  tbl : List (SegId × Segment)
  ctr : Nat
  dom : Dom
deriving DecidableEq, Repr

/-- Lookup of a segment object by identity. -/
def getSeg (s : CtrlState) (i : SegId) : Option Segment := s.tbl.lookup i

/-- Replacement of a segment object in the identity table. -/
def tblSet (t : List (SegId × Segment)) (i : SegId) (sg : Segment) : List (SegId × Segment) :=
  (i, sg) :: t.filter (fun p => p.1 ≠ i)

/-- In-place mutation of one segment object, as assignment to its fields. -/
def modifySeg (s : CtrlState) (i : SegId) (f : Segment → Segment) : CtrlState :=
  match s.tbl.lookup i with
  | none => s
  | some sg => { s with tbl := tblSet s.tbl i (f sg) }

/-- Getter nextOuterSibling of a DynamicDOMSegment: with a next segment it is
that segment.firstNodeOrNextOuterSibling, else the controller location value
(null here).  For a FromStaticNode range, firstActiveNode is always the
wrapped node (even while detached), so firstNodeOrNextOuterSibling never
falls through to a further chain walk. -/
def segNextOuter (s : CtrlState) (i : SegId) : Option DNode :=
  match getSeg s i with
  | none => none
  | some sg =>
    match sg.next with
    | none => none
    | some j =>
      match getSeg s j with
      | none => none
      | some t => some t.node

/-- Method removeFromDOM of the FromStaticNode driver wrapped by a segment:
node.remove() on the parent child list (the recorded location is cleared,
which the model does not need to track for these claims). -/
def removeSegRange (s : CtrlState) (i : SegId) : CtrlState :=
  match getSeg s i with
  | none => s
  | some sg => { s with dom := removeNode s.dom sg.node }

/-- Method DynamicDOMController.createAndAttachSegment: builds the segment,
links it with the given previous / next neighbours, then attaches the wrapped
range at the segment location.  Both outer-sibling getters of a segment are
present, so the location strategy is insert-before-next, and attaching the
single static node is one insertBefore with the resolved next outer
sibling. -/
def createAndAttachSegment (s : CtrlState) (rangeNode : DNode)
    (previous next : Option SegId) : SegId × CtrlState :=
  let i := s.ctr
  let s := { s with ctr := i + 1, tbl := tblSet s.tbl i ⟨rangeNode, none, none⟩ }
  let s :=
    match previous with
    | some p => modifySeg (modifySeg s p (fun sg => { sg with next := some i })) i
        (fun sg => { sg with prev := some p })
    | none => s
  let s :=
    match next with
    | some nx => modifySeg (modifySeg s nx (fun sg => { sg with prev := some i })) i
        (fun sg => { sg with next := some nx })
    | none => s
  (i, { s with dom := insertBefore s.dom rangeNode (segNextOuter s i) })

/-- Method DynamicDOMController.push. -/
def pushOp (s : CtrlState) (ranges : List DNode) : CtrlState :=
  (ranges.foldl
    (fun (acc : CtrlState × Option SegId) r =>
      let (i, s') := createAndAttachSegment acc.1 r acc.2 none
      ({ s' with segs := s'.segs ++ [i] }, some i))
    (s, s.segs.getLast?)).1

/-- Method DynamicDOMController.pop. -/
def popOp (s : CtrlState) : CtrlState :=
  match s.segs.getLast? with
  | none => s
  | some last =>
    let s := { s with segs := s.segs.dropLast }
    let s := removeSegRange s last
    match (getSeg s last).bind (fun sg => sg.prev) with
    | some p => modifySeg s p (fun sg => { sg with next := none })
    | none => s

/-- Method DynamicDOMController.unshift: iterates the insertions from last to
first, each created with the previously created segment as its next
neighbour. -/
def unshiftOp (s : CtrlState) (ranges : List DNode) : CtrlState :=
  (ranges.foldr
    (fun r (acc : CtrlState × Option SegId) =>
      let (i, s') := createAndAttachSegment acc.1 r none acc.2
      ({ s' with segs := i :: s'.segs }, some i))
    (s, s.segs.head?)).1

/-- Method DynamicDOMController.shift. -/
def shiftOp (s : CtrlState) : CtrlState :=
  match s.segs.head? with
  | none => s
  | some first =>
    let s := { s with segs := s.segs.tail }
    let s := removeSegRange s first
    match (getSeg s first).bind (fun sg => sg.next) with
    | some nx => modifySeg s nx (fun sg => { sg with prev := none })
    | none => s

/-- Insertion loop of DynamicDOMController.splice: insertion 0 gets the
precomputed previous neighbour, each later insertion gets the previously
created segment, and only the final insertion gets the precomputed next
neighbour (the others get null). -/
def spliceInsert (s : CtrlState) (previous next : Option SegId) :
    List DNode → CtrlState × List SegId
  | [] => (s, [])
  | [r] =>
    let (i, s') := createAndAttachSegment s r previous next
    (s', [i])
  | r :: r2 :: rest =>
    let (i, s') := createAndAttachSegment s r previous none
    let (s'', is) := spliceInsert s' (some i) next (r2 :: rest)
    (s'', i :: is)

/-- Method DynamicDOMController.splice(index, deletions, insertions). -/
def spliceOp (s : CtrlState) (index deletions : Nat) (insertions : List DNode) : CtrlState :=
  let previous := if 0 < index then s.segs.get? (index - 1) else none
  let next := if index + deletions < s.segs.length then s.segs.get? (index + deletions) else none
  let s := (List.range deletions).foldl
    (fun s k =>
      match s.segs.get? (index + k) with
      | some sid => removeSegRange s sid
      | none => s) s
  let (s, newIds) := spliceInsert s previous next insertions
  { s with segs := s.segs.take index ++ newIds ++ s.segs.drop (index + deletions) }

/-- Method DynamicDOMController.set(index, value). -/
def setOp (s : CtrlState) (index : Nat) (rangeNode : DNode) : CtrlState :=
  let s :=
    match s.segs.get? index with
    | some old => removeSegRange s old
    | none => s
  let previous := if 0 < index then s.segs.get? (index - 1) else none
  let next := if index < s.segs.length - 1 then s.segs.get? (index + 1) else none
  let (i, s') := createAndAttachSegment s rangeNode previous next
  { s' with segs := s'.segs.set index i }

/-- Event vocabulary of the reactive array source, as dispatched by
DynamicDOMController.signal. -/
inductive ArrayEvent where
  | pushE : List DNode → ArrayEvent
  | popE : ArrayEvent
  | unshiftE : List DNode → ArrayEvent
  | shiftE : ArrayEvent
  | spliceE : Nat → Nat → List DNode → ArrayEvent
  | setE : Nat → DNode → ArrayEvent
deriving DecidableEq, Repr

/-- Method DynamicDOMController.signal: event dispatch (a batch event is the
sequential replay of its sub-events, i.e. a run of this function). -/
def signal (s : CtrlState) : ArrayEvent → CtrlState
  | .pushE vs => pushOp s vs
  | .popE => popOp s
  | .unshiftE vs => unshiftOp s vs
  | .shiftE => shiftOp s
  | .spliceE i d ins => spliceOp s i d ins
  | .setE i v => setOp s i v

/-- Controller starting empty over an empty parent. -/
def initCtrl : CtrlState := ⟨[], [], 0, []⟩

/-- Run of a controller over a sequence of array events. -/
def runEvents (events : List ArrayEvent) : CtrlState := events.foldl signal initCtrl

/-- Reference in-memory array semantics of the same event vocabulary. -/
def refStep (l : List DNode) : ArrayEvent → List DNode
  | .pushE vs => l ++ vs
  | .popE => l.dropLast
  | .unshiftE vs => vs ++ l
  | .shiftE => l.tail
  | .spliceE i d ins => l.take i ++ ins ++ l.drop (i + d)
  | .setE i v => l.set i v

/-- Run of the reference array over a sequence of array events. -/
def refRun (events : List ArrayEvent) : List DNode := events.foldl refStep []

/-!
ConcatAll, from src/source/dom/dom-node-range.ts (DOMNodeRange.ConcatAll and
its Driver).  The constructor loop only reads isImmutable, firstActiveNode
and lastActiveNode of each sub-range, so a sub-range is modelled by those
three values; undefined and null are distinguished exactly as in the source
(the accumulator type is ChildNode | null | undefined).
-/

/-- Sub-range as seen by ConcatAll: its immutability flag and its current
first / last active node (null when empty). -/
structure SubRange where
  isImmutable : Bool
  firstActiveNode : Option DNode
  lastActiveNode : Option DNode
deriving DecidableEq, Repr

/-- Value of type ChildNode | null | undefined: none is undefined, some none
is null, some (some n) is a node. -/
abbrev JSNode := Option (Option DNode)

/-- Predicate isUndefined of the type-checking helpers. -/
def isUndefinedJS (v : JSNode) : Bool := v == none

/-- Predicate isNull of the type-checking helpers. -/
def isNullJS (v : JSNode) : Bool := v == some none

/-- Data record built by ConcatAll and consumed by ConcatAll.Driver. -/
structure ConcatData where
  ranges : List SubRange
  isImmutable : Bool
  firstActiveNode : JSNode
  lastActiveNode : JSNode
deriving DecidableEq, Repr

/-- Constructor loop of DOMNodeRange.ConcatAll over the sub-ranges, carrying
the firstActiveNode / lastActiveNode accumulators: an immutable sub-range may
define an undefined accumulator from its own non-null value, then the
consistency check compares the null-ness of the two accumulators and throws;
a mutable sub-range clears the last accumulator, marks the result mutable and
breaks. -/
def concatAllLoop : List SubRange → JSNode → JSNode →
    Except String (Bool × JSNode × JSNode)
  | [], f, l => .ok (true, f, l)
  | r :: rs, f, l =>
    if r.isImmutable then
      let f := if isUndefinedJS f && r.firstActiveNode.isSome then some r.firstActiveNode else f
      let l := if isUndefinedJS l && r.lastActiveNode.isSome then some r.lastActiveNode else l
      if isNullJS f != isNullJS l then
        .error "Invalid range: firstActiveNode and lastActiveNode must both be null or both be non-null."
      else concatAllLoop rs f l
    else .ok (false, f, none)

/-- Function DOMNodeRange.ConcatAll: runs the constructor loop and packages
the driver data (or propagates the thrown error). -/
def ConcatAll (ranges : List SubRange) : Except String ConcatData :=
  (concatAllLoop ranges none none).map (fun t => ⟨ranges, t.1, t.2.1, t.2.2⟩)

/-- Helper findNextActiveNode of the ConcatAll driver, scanning forward from
a given start for the first sub-range with a non-null firstActiveNode. -/
def findNextActiveNode : List SubRange → Option DNode
  | [] => none
  | r :: rs =>
    match r.firstActiveNode with
    | some n => some n
    | none => findNextActiveNode rs

/-- Method firstActiveNode of ConcatAll.Driver: the precomputed value when
defined, else a forward scan from index 0. -/
def ConcatData.driverFirstActiveNode (d : ConcatData) : Option DNode :=
  match d.firstActiveNode with
  | some v => v
  | none => findNextActiveNode d.ranges

/-- Backward scan of the ConcatAll driver for lastActiveNode: from the last
index down, the first sub-range with a non-null lastActiveNode. -/
def findLastActiveNodeRev : List SubRange → Option DNode
  | [] => none
  | r :: rs =>
    match findLastActiveNodeRev rs with
    | some n => some n
    | none => r.lastActiveNode

/-- Method lastActiveNode of ConcatAll.Driver: the precomputed value when
defined, else the backward scan. -/
def ConcatData.driverLastActiveNode (d : ConcatData) : Option DNode :=
  match d.lastActiveNode with
  | some v => v
  | none => findLastActiveNodeRev d.ranges

/-- Statement of the spec for comparison in C2: the last non-null
lastActiveNode among the sub-ranges in order (the last non-null-yielding
sub-range gives its last node). -/
def specLastActiveNode (ranges : List SubRange) : Option DNode :=
  findLastActiveNodeRev ranges

/-- Statement of the spec for comparison in C2: the first non-null
firstActiveNode among the sub-ranges in order. -/
def specFirstActiveNode (ranges : List SubRange) : Option DNode :=
  findNextActiveNode ranges

/-!
RenderedRange, from src/source/dom/html-template.ts: the driver backing a
range produced by HTMLTemplate.render.  The nodes that instantiating the
template would produce are fixed identifiers; getNodes materialises them on
first use.
-/

/-- Data record of the RenderedRange driver. -/
structure RenderedData where
  templateNodes : List DNode
  nodes : Option (List DNode)
  location : Option DOMLocationPointer

/-- Function getNodes of RenderedRange: returns the instantiated child nodes,
cloning the template content on first use. -/
def getNodesRR (d : RenderedData) : List DNode × RenderedData :=
  match d.nodes with
  | some ns => (ns, d)
  | none => (d.templateNodes, { d with nodes := some d.templateNodes })

/-- Method HTMLTemplate.render: driver data with nodes not yet instantiated
and no recorded location. -/
def renderTemplate (templateNodes : List DNode) : RenderedData :=
  ⟨templateNodes, none, none⟩

/-- Method attachToDOM of RenderedRange.Driver: records the location, then
appends each instantiated node at it. -/
def RenderedData.attachToDOM (p : DOMLocationPointer) :
    Dom × RenderedData → Dom × RenderedData :=
  fun dd =>
    let d := { dd.2 with location := some p }
    let (ns, d) := getNodesRR d
    (p.appendEach dd.1 ns, d)

/-- Method removeFromDOM of RenderedRange.Driver: a no-op when the nodes were
never instantiated, else each node is removed from the document; the recorded
location field is left untouched by the source. -/
def RenderedData.removeFromDOM : Dom × RenderedData → Dom × RenderedData :=
  fun dd =>
    match dd.2.nodes with
    | none => dd
    | some _ =>
      let (ns, d) := getNodesRR dd.2
      (ns.foldl removeNode dd.1, d)

/-- Method attachedLocation of RenderedRange.Driver. -/
def RenderedData.attachedLocation (d : RenderedData) : Option DOMLocationPointer :=
  d.location

/-!
Accessor caching of class DOMNodeRange, from src/source/dom/dom-node-range.ts.
The private hash-fields are modelled as an explicit cache record threaded
through each getter; the backing driver of a mutable range is modelled by the
values its firstActiveNode / lastActiveNode functions currently return, which
may differ between two reads when the underlying content changed in between.
Element-ness and HTML-element-ness of a node, and sibling order, come from a
fixed environment.
-/

/-- Snapshot of a driver of a DOMNodeRange at the moment of a read: the flag
isImmutableRange and the current results of firstActiveNode and
lastActiveNode. -/
structure RDriver where
  isImmutableRange : Bool
  first : Option DNode
  last : Option DNode
deriving DecidableEq, Repr

/-- Ambient DOM facts used by the accessor walks: sibling order and which
nodes are instances of Element and of HTMLElement. -/
structure SibEnv where
  children : Dom
  elementIds : List DNode
  htmlElementIds : List DNode
deriving DecidableEq, Repr

/-- Private cache fields of DOMNodeRange (undefined when none). -/
structure RangeCache where
  isImmutableC : Option Bool
  firstActiveNodeC : Option (Option DNode)
  lastActiveNodeC : Option (Option DNode)
  firstActiveElementC : Option (Option DNode)
  firstActiveHTMLElementC : Option (Option DNode)
deriving DecidableEq, Repr

/-- Cache of a freshly constructed DOMNodeRange. -/
def emptyCache : RangeCache := ⟨none, none, none, none, none⟩

/-- Getter isImmutable: lazily fills its cache field from the driver. -/
def rangeIsImmutable (drv : RDriver) (c : RangeCache) : Bool × RangeCache :=
  match c.isImmutableC with
  | some b => (b, c)
  | none => (drv.isImmutableRange, { c with isImmutableC := some drv.isImmutableRange })

/-- Getter firstActiveNode: returns the cached value when defined, else reads
the driver and caches the result only when the range is immutable. -/
def rangeFirstActiveNode (drv : RDriver) (c : RangeCache) : Option DNode × RangeCache :=
  match c.firstActiveNodeC with
  | some v => (v, c)
  | none =>
    let node := drv.first
    let (imm, c) := rangeIsImmutable drv c
    (node, if imm then { c with firstActiveNodeC := some node } else c)

/-- Getter lastActiveNode, symmetric to firstActiveNode. -/
def rangeLastActiveNode (drv : RDriver) (c : RangeCache) : Option DNode × RangeCache :=
  match c.lastActiveNodeC with
  | some v => (v, c)
  | none =>
    let node := drv.last
    let (imm, c) := rangeIsImmutable drv c
    (node, if imm then { c with lastActiveNodeC := some node } else c)

/-- While loop of getter firstActiveElement: walks nextSibling from the first
active node until an Element is found, stopping as null at the last active
node, which is read lazily once (last ??= lastActiveNode). -/
def faeLoop (env : SibEnv) (drv : RDriver) :
    Nat → Option DNode → Option (Option DNode) → RangeCache → Option DNode × RangeCache
  | 0, _, _, c => (none, c)
  | fuel + 1, node?, lastMemo, c =>
    match node? with
    | none => (none, c)
    | some n =>
      if n ∈ env.elementIds then (some n, c)
      else
        match lastMemo with
        | some v =>
          if v == some n then (none, c)
          else faeLoop env drv fuel (nextSibling env.children n) (some v) c
        | none =>
          let (v, c) := rangeLastActiveNode drv c
          if v == some n then (none, c)
          else faeLoop env drv fuel (nextSibling env.children n) (some v) c

/-- Getter firstActiveElement: returns the cached value when defined, else
walks from the first active node; the result is written to the cache
unconditionally (the source line is: return this.#firstActiveElement =
node). -/
def rangeFirstActiveElement (env : SibEnv) (drv : RDriver) (c : RangeCache) :
    Option DNode × RangeCache :=
  match c.firstActiveElementC with
  | some v => (v, c)
  | none =>
    let (n0, c) := rangeFirstActiveNode drv c
    let (v, c) := faeLoop env drv (env.children.length + 1) n0 none c
    (v, { c with firstActiveElementC := some v })

/-- Method firstActiveNodeOfType: walks nextSibling from the first active
node until a node of the requested kind is found. -/
def nodeOfTypeLoop (env : SibEnv) (kindIds : List DNode) :
    Nat → Option DNode → Option DNode
  | 0, _ => none
  | fuel + 1, node? =>
    match node? with
    | none => none
    | some n =>
      if n ∈ kindIds then some n
      else nodeOfTypeLoop env kindIds fuel (nextSibling env.children n)

/-- Getter firstActiveHTMLElement: returns the cached value when defined,
else computes firstActiveNodeOfType(HTMLElement) and writes the cache field
exactly when the range is NOT immutable (the source guard is
if (!this.isImmutable)). -/
def rangeFirstActiveHTMLElement (env : SibEnv) (drv : RDriver) (c : RangeCache) :
    Option DNode × RangeCache :=
  match c.firstActiveHTMLElementC with
  | some v => (v, c)
  | none =>
    let (n0, c) := rangeFirstActiveNode drv c
    let v := nodeOfTypeLoop env env.htmlElementIds (env.children.length + 1) n0
    let (imm, c) := rangeIsImmutable drv c
    (v, if !imm then { c with firstActiveHTMLElementC := some v } else c)

/-!
Reactive Attachment Engine, from src/source/dom/element-attributes.ts: the
per-name cancellation table of setAttributesFromMapSource and friends, with
setOrUpdateExistingAttribute, setAttribute and removeAttribute.  A dynamic
value (one-shot async or streaming source) bound under a subcontext allocates
a fresh AbortController; a literal is applied directly.  Modelled from the
spec for the external reactive-primitives contract: a subscription or pending
async registered with the signal of an abort controller stops being live
exactly when that controller aborts, so the model keeps the set of live
handles and a trace of engine actions.
-/

/-- Value bound to an aspect name: a literal, a one-shot async value, or a
streaming value source. -/
inductive BVal where
  | lit : String → BVal
  | asyncV : BVal
  | srcV : BVal
deriving DecidableEq, Repr

/-- Observable action of the engine: aborting an AbortController, registering
a subscription or async continuation under a fresh controller for a name,
applying a literal to the elements, or removing the attribute from the
elements. -/
inductive Act where
  | abortA : Nat → Act
  | subscribeA : Nat → String → Act
  | applyA : String → Act
  | unassignA : String → Act
deriving DecidableEq, Repr

/-- State of the engine for one context: the name-to-controller table, the
set of live (created and not yet aborted) controllers, the owner name of each
created controller, a fresh-controller counter, and the action trace. -/
structure AspState where
  table : String → Option Nat
  live : List Nat
  owner : Nat → Option String
  ctr : Nat
  trace : List Act

/-- Pointwise update of a function-backed map. -/
def upd {α β : Type} [DecidableEq α] (f : α → Option β) (a : α) (b : Option β) :
    α → Option β :=
  fun x => if x = a then b else f x

/-- Abort of an AbortController: the subscription or pending async registered
under it stops being live. -/
def abortController (h : Nat) (st : AspState) : AspState :=
  { st with live := st.live.erase h, trace := st.trace ++ [.abortA h] }

/-- Function setAttribute / setQualifiedAttribute: a literal is applied
directly (no controller); an async or source value under useSubcontext
allocates a fresh AbortController, registers the continuation or
subscription with its signal, and returns it; without useSubcontext the
registration is tied to the outer context signal and no controller is
returned. -/
def setAttributeM (name : String) (v : BVal) (useSub : Bool) (st : AspState) :
    Option Nat × AspState :=
  match v with
  | .lit _ => (none, { st with trace := st.trace ++ [.applyA name] })
  | .asyncV | .srcV =>
    let h := st.ctr
    if useSub then
      (some h,
        { st with
          ctr := h + 1
          live := st.live ++ [h]
          owner := upd st.owner h (some name)
          trace := st.trace ++ [.subscribeA h name] })
    else
      (none,
        { st with
          ctr := h + 1
          live := st.live ++ [h]
          trace := st.trace ++ [.subscribeA h name] })

/-- Function setOrUpdateExistingAttribute on the abortControllers path: an
existing controller for the name is aborted first, then the new value is set
under a subcontext, and the table entry is replaced or deleted according to
whether a new controller was produced. -/
def setOrUpdateExistingAttribute (name : String) (v : BVal) (st : AspState) : AspState :=
  match st.table name with
  | some old =>
    let st := abortController old st
    let (h?, st) := setAttributeM name v true st
    match h? with
    | some h => { st with table := upd st.table name (some h) }
    | none => { st with table := upd st.table name none }
  | none =>
    let (h?, st) := setAttributeM name v true st
    match h? with
    | some h => { st with table := upd st.table name (some h) }
    | none => st

/-- Function removeAttribute with the abortControllers table: aborts and
deletes the controller for the name when present, then removes the attribute
from the elements. -/
def removeAttributeM (name : String) (st : AspState) : AspState :=
  let st :=
    match st.table name with
    | some h =>
      let st := abortController h st
      { st with table := upd st.table name none }
    | none => st
  { st with trace := st.trace ++ [.unassignA name] }

/-- Entry of a map-source event stream as consumed by
setAttributesFromMapSource: an add/change entry assigns one name, a delete
entry removes one name. -/
inductive AOp where
  | assignOp : String → BVal → AOp
  | deleteOp : String → AOp
deriving DecidableEq, Repr

/-- Processing of one entry. -/
def stepAOp (st : AspState) : AOp → AspState
  | .assignOp name v => setOrUpdateExistingAttribute name v st
  | .deleteOp name => removeAttributeM name st

/-- Engine state at subscription time: empty table, nothing live. -/
def initAsp : AspState :=
  ⟨fun _ => none, [], fun _ => none, 0, []⟩

/-- Run of the engine over a sequence of map-source entries. -/
def runAOps (ops : List AOp) : AspState := ops.foldl stepAOp initAsp

/-- Controllers currently live whose owner is the given name. -/
def liveOwnedBy (st : AspState) (name : String) : List Nat :=
  st.live.filter (fun h => st.owner h == some name)

/-!
Connectedness Observer, from src/source/dom/dom-connectedness.ts
(DOMConnectedness.observe and onConnectionEvent).  Modelled from the spec:
the external Subscribable.Controller demand contract (the source goes online
when the first subscriber subscribes and offline when the last subscription
is disposed) and the external ConnectionObserver (represented by the flag
that the node is currently being observed).  The AssociativeWeakSet is an
association list; weak holding itself (garbage collection of unreferenced
nodes) is outside the model.
-/

/-- Backing observation source of one node: the subscriber list of its
Subscribable.Controller and whether a ConnectionObserver is currently
observing the node. -/
structure NodeSource where
  subs : List Nat
  observing : Bool
deriving DecidableEq, Repr

/-- State of the sharing layer: the node-keyed set of backing sources. -/
structure ConnState where
  sources : List (DNode × NodeSource)
deriving DecidableEq, Repr

/-- Replacement of the source stored for a node already present. -/
def srcSet (t : List (DNode × NodeSource)) (node : DNode) (src : NodeSource) :
    List (DNode × NodeSource) :=
  t.map (fun p => if p.1 = node then (node, src) else p)

/-- Function DOMConnectedness.observe for one subscriber: gets or creates the
backing source of the node (created sources start with no observer; the
online callback of the demand observer constructs and starts the
ConnectionObserver), then subscribes, going online on the first
subscriber. -/
def observeOp (st : ConnState) (node : DNode) (sid : Nat) : ConnState :=
  match st.sources.lookup node with
  | some src =>
    let src' : NodeSource :=
      { subs := src.subs ++ [sid]
        observing := if src.subs.isEmpty then true else src.observing }
    ⟨srcSet st.sources node src'⟩
  | none =>
    let src' : NodeSource := { subs := [sid], observing := true }
    ⟨st.sources ++ [(node, src')]⟩

/-- Disposal of one subscription via its abort signal: the subscriber is
removed and the source goes offline (the ConnectionObserver disconnects)
when the last subscriber is gone. -/
def disposeOp (st : ConnState) (node : DNode) (sid : Nat) : ConnState :=
  match st.sources.lookup node with
  | some src =>
    let subs' := src.subs.erase sid
    let src' : NodeSource :=
      { subs := subs'
        observing := if subs'.isEmpty then false else src.observing }
    ⟨srcSet st.sources node src'⟩
  | none => st

/-- Subscription-layer operation: one observe call or one subscription
disposal. -/
inductive COp where
  | obs : DNode → Nat → COp
  | disp : DNode → Nat → COp
deriving DecidableEq, Repr

/-- Processing of one operation. -/
def stepCOp (st : ConnState) : COp → ConnState
  | .obs node sid => observeOp st node sid
  | .disp node sid => disposeOp st node sid

/-- Run of the sharing layer from the empty table. -/
def runCOps (ops : List COp) : ConnState := ops.foldl stepCOp ⟨[]⟩

/-- Function onConnectionEvent for one connection record: the notification is
dispatched to every current subscriber of the target node (an unknown target
notifies nobody). -/
def dispatchConnection (st : ConnState) (target : DNode) (connected : Bool) :
    List (Nat × Bool) :=
  match st.sources.lookup target with
  | none => []
  | some src => src.subs.map (fun sid => (sid, connected))

/-- Subscriber list currently registered for a node. -/
def subsOf (st : ConnState) (node : DNode) : List Nat :=
  match st.sources.lookup node with
  | none => []
  | some src => src.subs

/-- Whether a ConnectionObserver is currently observing the node. -/
def observingOf (st : ConnState) (node : DNode) : Bool :=
  match st.sources.lookup node with
  | none => false
  | some src => src.observing

/-!
Concrete fixture for the caching claim: a two-node parent where both children
are HTML elements, and two snapshots of a mutable driver whose current
boundary moves from node 1 to node 2 between two reads.
-/

/-- Sibling environment with children 1 and 2, both HTML elements. -/
def env5 : SibEnv := ⟨[1, 2], [1, 2], [1, 2]⟩

/-- Mutable-range driver snapshot while the content is node 1. -/
def drv5a : RDriver := ⟨false, some 1, some 1⟩

/-- Mutable-range driver snapshot after the content changed to node 2. -/
def drv5b : RDriver := ⟨false, some 2, some 2⟩

/-- Invariant of the aspect-binding engine state: live controllers are
distinct and fresh, ownership is recorded exactly for created controllers,
the table maps a name only to a controller owned by that name, and every
live controller is reachable from the table. -/
def AspInv (st : AspState) : Prop :=
  st.live.Nodup ∧
  (∀ h, h ∈ st.live → h < st.ctr) ∧
  (∀ h, st.ctr ≤ h → st.owner h = none) ∧
  (∀ name h, st.table name = some h → st.owner h = some name) ∧
  (∀ h, h ∈ st.live → ∃ name, st.table name = some h)

/-- Invariant of the connectedness sharing layer: nodes key at most one
backing source, and a source is observing exactly while it has
subscribers. -/
def ConnInv (st : ConnState) : Prop :=
  (st.sources.map Prod.fst).Nodup ∧
  (∀ node, observingOf st node = !(subsOf st node).isEmpty)

/-!
Theorems.  Shared helper lemmas come first, then one theorem per claim (with
its witness or counterexample where required).
-/

/-- Insertion before the first occurrence of an anchor lands immediately
before it. -/
theorem insertBeforeAux_eq (l r : Dom) (n x : DNode) (hx : x ∉ l) :
    insertBeforeAux (l ++ x :: r) n x = l ++ n :: x :: r := by
  induction l with
  | nil => simp [insertBeforeAux]
  | cons a l ih =>
    have hax : a ≠ x := fun h => hx (h ▸ List.mem_cons_self a l)
    have hx' : x ∉ l := fun h => hx (List.mem_cons_of_mem a h)
    simp [insertBeforeAux, hax, ih hx']

/-- Folding a step that appends one element at the end concatenates the
whole list. -/
theorem foldl_append_one (g : Dom → DNode → Dom) (hg : ∀ d n, g d n = d ++ [n]) :
    ∀ (ns : List DNode) (dom : Dom), ns.foldl g dom = dom ++ ns := by
  intro ns
  induction ns with
  | nil => intro dom; simp
  | cons n ns ih => intro dom; simp [hg, ih (dom ++ [n])]

/-- C1: for the scenario push([A,B,C]); splice(1,1,[D,E]); shift(); set(1,F)
mirrored from a reference array, the claim expects DOM orders [A,D,E,C],
[D,E,C], [D,F,C]; the code instead appends the intermediate insertion of the
multi-element splice at the controller boundary, yielding [A,E,C,D] after the
splice and [F,C,D] at the end, so the final DOM sibling order differs from
the final reference array order (nodes: A=10, B=20, C=30, D=40, E=50,
F=60). -/
theorem dynamicListReconciler_scenario_divergence :
    (runEvents [.pushE [10, 20, 30], .spliceE 1 1 [40, 50]]).dom = [10, 50, 30, 40] ∧
    refRun [.pushE [10, 20, 30], .spliceE 1 1 [40, 50]] = [10, 40, 50, 30] ∧
    (runEvents [.pushE [10, 20, 30], .spliceE 1 1 [40, 50], .shiftE, .setE 1 60]).dom
      = [60, 30, 40] ∧
    refRun [.pushE [10, 20, 30], .spliceE 1 1 [40, 50], .shiftE, .setE 1 60]
      = [40, 60, 30] ∧
    (runEvents [.pushE [10, 20, 30], .spliceE 1 1 [40, 50], .shiftE, .setE 1 60]).dom
      ≠ refRun [.pushE [10, 20, 30], .spliceE 1 1 [40, 50], .shiftE, .setE 1 60] := by
  refine ⟨rfl, rfl, rfl, rfl, ?_⟩
  decide

/-- C7: after push([A,B,C]) then splice(1,1) with no insertions, the removed
middle segment (id 1) is still the next pointer of the first surviving
segment and the previous pointer of the last surviving segment; the claim
expects the survivors (ids 0 and 2) to point at one another. -/
theorem splice_deletion_staleLinks :
    (runEvents [.pushE [10, 20, 30], .spliceE 1 1 []]).segs = [0, 2] ∧
    (runEvents [.pushE [10, 20, 30], .spliceE 1 1 []]).dom = [10, 30] ∧
    getSeg (runEvents [.pushE [10, 20, 30], .spliceE 1 1 []]) 0 = some ⟨10, none, some 1⟩ ∧
    getSeg (runEvents [.pushE [10, 20, 30], .spliceE 1 1 []]) 2 = some ⟨30, some 1, none⟩ ∧
    1 ∉ (runEvents [.pushE [10, 20, 30], .spliceE 1 1 []]).segs ∧
    getSeg (runEvents [.pushE [10, 20, 30], .spliceE 1 1 []]) 0 ≠ some ⟨10, none, some 2⟩ ∧
    getSeg (runEvents [.pushE [10, 20, 30], .spliceE 1 1 []]) 2 ≠ some ⟨30, some 0, none⟩ := by
  refine ⟨rfl, rfl, rfl, rfl, ?_, ?_, ?_⟩ <;> decide

/-- C2: for a ConcatAll of two immutable single-node sub-ranges holding
nodes 1 and 2, the constructor precomputes lastActiveNode from the FIRST
sub-range with a non-null last node, so the driver reports node 1, while the
claim (and the backward scan the driver itself uses in the mutable case)
gives node 2; firstActiveNode agrees with the claim. -/
theorem concatAll_lastActiveNode_divergence :
    ConcatAll [⟨true, some 1, some 1⟩, ⟨true, some 2, some 2⟩]
      = .ok ⟨[⟨true, some 1, some 1⟩, ⟨true, some 2, some 2⟩], true,
          some (some 1), some (some 1)⟩ ∧
    ConcatData.driverLastActiveNode
      ⟨[⟨true, some 1, some 1⟩, ⟨true, some 2, some 2⟩], true,
        some (some 1), some (some 1)⟩ = some 1 ∧
    specLastActiveNode [⟨true, some 1, some 1⟩, ⟨true, some 2, some 2⟩] = some 2 ∧
    ConcatData.driverFirstActiveNode
      ⟨[⟨true, some 1, some 1⟩, ⟨true, some 2, some 2⟩], true,
        some (some 1), some (some 1)⟩ = some 1 ∧
    specFirstActiveNode [⟨true, some 1, some 1⟩, ⟨true, some 2, some 2⟩] = some 1 ∧
    (1 : DNode) ≠ 2 := by
  refine ⟨rfl, rfl, rfl, rfl, rfl, ?_⟩
  decide

/-- C4: a range rendered from a template with nodes 1 and 2, attached to a
parent already holding node 9 and then removed, leaves the document without
the range nodes, but the recorded location is NOT cleared: attachedLocation
is still non-null after remove(), against the claim. -/
theorem renderedRange_remove_keepsLocation :
    (RenderedData.attachToDOM DOMLocationPointer.fromElement
      ([9], renderTemplate [1, 2])).1 = [9, 1, 2] ∧
    (RenderedData.removeFromDOM (RenderedData.attachToDOM DOMLocationPointer.fromElement
      ([9], renderTemplate [1, 2]))).1 = [9] ∧
    (RenderedData.attachedLocation (RenderedData.removeFromDOM
      (RenderedData.attachToDOM DOMLocationPointer.fromElement
        ([9], renderTemplate [1, 2]))).2).isSome = true :=
  ⟨rfl, rfl, rfl⟩

/-- C5: for a mutable range (isImmutableRange false) whose content moves from
element 1 to element 2 between two reads, the second read of
firstActiveElement and of firstActiveHTMLElement still returns element 1
(both getters wrote their cache on the first read: firstActiveElement caches
unconditionally, firstActiveHTMLElement caches under the inverted guard
if (!isImmutable)), while a fresh uncached read returns element 2 and the
firstActiveNode getter correctly reflects the current driver state. -/
theorem mutableRange_elementAccessor_caches :
    (rangeFirstActiveElement env5 drv5b
      (rangeFirstActiveElement env5 drv5a emptyCache).2).1 = some 1 ∧
    (rangeFirstActiveElement env5 drv5b emptyCache).1 = some 2 ∧
    (rangeFirstActiveHTMLElement env5 drv5b
      (rangeFirstActiveHTMLElement env5 drv5a emptyCache).2).1 = some 1 ∧
    (rangeFirstActiveHTMLElement env5 drv5b emptyCache).1 = some 2 ∧
    (rangeFirstActiveNode drv5b
      (rangeFirstActiveElement env5 drv5a emptyCache).2).1 = some 2 ∧
    drv5a.isImmutableRange = false ∧
    (some 1 : Option DNode) ≠ some 2 := by
  refine ⟨rfl, rfl, rfl, rfl, rfl, rfl, ?_⟩
  decide

/-- Accumulators of the ConcatAll constructor loop are only ever undefined or
a non-null node, never null, so the null-ness comparison in the consistency
check is always false-versus-false and the loop always returns ok. -/
theorem concatAllLoop_ok (rs : List SubRange) :
    ∀ f l : JSNode, isNullJS f = false → isNullJS l = false →
      ∃ out, concatAllLoop rs f l = .ok out := by
  induction rs with
  | nil => intro f l _ _; exact ⟨(true, f, l), rfl⟩
  | cons r rs ih =>
    intro f l hf hl
    by_cases hImm : r.isImmutable
    · have hf' : isNullJS (if isUndefinedJS f && r.firstActiveNode.isSome
          then some r.firstActiveNode else f) = false := by
        split
        · next hcond =>
          have hs : r.firstActiveNode.isSome := (Bool.and_eq_true _ _ |>.mp hcond).2
          obtain ⟨n, hn⟩ := Option.isSome_iff_exists.mp hs
          simp [isNullJS, hn]
        · exact hf
      have hl' : isNullJS (if isUndefinedJS l && r.lastActiveNode.isSome
          then some r.lastActiveNode else l) = false := by
        split
        · next hcond =>
          have hs : r.lastActiveNode.isSome := (Bool.and_eq_true _ _ |>.mp hcond).2
          obtain ⟨n, hn⟩ := Option.isSome_iff_exists.mp hs
          simp [isNullJS, hn]
        · exact hl
      obtain ⟨out, hout⟩ := ih _ _ hf' hl'
      refine ⟨out, ?_⟩
      simp only [concatAllLoop, hImm, if_true]
      rw [hf', hl']
      simpa using hout
    · exact ⟨(false, f, none), by simp [concatAllLoop, hImm]⟩

/-- C8: the construction-time consistency check of ConcatAll can never fire:
its accumulators are never null (isNull is tested where only undefined or a
node can occur), so construction never throws for ANY input, including the
inconsistent immutable sub-range of the claim, which reports a null
first-active-node together with a non-null last-active-node and is accepted
without an error. -/
theorem concatAll_invariantCheck_neverThrows :
    (∀ ranges : List SubRange, ∃ d, ConcatAll ranges = .ok d) ∧
    ConcatAll [⟨true, none, some 7⟩]
      = .ok ⟨[⟨true, none, some 7⟩], true, none, some (some 7)⟩ := by
  constructor
  · intro ranges
    obtain ⟨out, hout⟩ := concatAllLoop_ok ranges none none rfl rfl
    exact ⟨⟨ranges, out.1, out.2.1, out.2.2⟩, by simp [ConcatAll, hout, Except.map]⟩
  · rfl

/-- C3 counterexample: a pointer built from props with only a (constant)
previous-sibling anchor, node 0, receives appendEach([1, 2]) on the child
list [0]; the appended nodes end up in the DOM as [2, 1], the reverse of the
input order, refuting order preservation for the insert-after-previous-
sibling strategy. -/
theorem appendEach_previousSibling_reversal_cex :
    (DOMLocationPointer.fromProps (.nodeRef 0) .undef).appendEach [0] [1, 2]
      = [0, 2, 1] ∧
    ((DOMLocationPointer.fromProps (.nodeRef 0) .undef).appendEach [0] [1, 2]).filter
      (fun n => n ≠ 0) = [2, 1] ∧
    ([2, 1] : List DNode) ≠ [1, 2] := by
  refine ⟨rfl, rfl, ?_⟩
  decide

/-- C3 (amended): appendEach applies append to each node in input order, and
the nodes end up in the DOM in input order under the append-as-last-child
strategy and under the insert-before-next-sibling strategy with a stable
anchor (a null anchor, or an anchor node that is a child and not among the
appended nodes); under the insert-after-previous-sibling strategy with a
stable anchor the appended nodes instead end up immediately after the anchor
in reverse order. -/
theorem appendEach_order_amended :
    (∀ (dom : Dom) (ns : List DNode),
      DOMLocationPointer.fromElement.appendEach dom ns = dom ++ ns) ∧
    (∀ (dom : Dom) (ns : List DNode),
      (DOMLocationPointer.fromProps .undef .nullRef).appendEach dom ns = dom ++ ns) ∧
    (∀ (l r : Dom) (x : DNode) (ns : List DNode), x ∉ l → x ∉ ns →
      (DOMLocationPointer.fromProps .undef (.nodeRef x)).appendEach (l ++ x :: r) ns
        = l ++ ns ++ x :: r) ∧
    (∀ (tl : Dom) (x : DNode) (ns : List DNode), x ∉ tl → x ∉ ns →
      (DOMLocationPointer.fromProps (.nodeRef x) .undef).appendEach (x :: tl) ns
        = x :: (ns.reverse ++ tl)) := by
  refine ⟨?_, ?_, ?_, ?_⟩
  · intro dom ns
    exact foldl_append_one _ (fun d n => rfl) ns dom
  · intro dom ns
    exact foldl_append_one _ (fun d n => rfl) ns dom
  · intro l r x ns
    induction ns generalizing l with
    | nil => intro _ _; simp [DOMLocationPointer.appendEach]
    | cons n ns ih =>
      intro hxl hxns
      have hxn : x ≠ n := fun h => hxns (h ▸ List.mem_cons_self n ns)
      have hxns' : x ∉ ns := fun h => hxns (List.mem_cons_of_mem n h)
      have hstep : (DOMLocationPointer.fromProps .undef (.nodeRef x)).append
          (l ++ x :: r) n = (l ++ [n]) ++ x :: r := by
        show insertBefore (l ++ x :: r) n (some x) = (l ++ [n]) ++ x :: r
        simp [insertBefore, insertBeforeAux_eq l r n x hxl]
      have hxl' : x ∉ l ++ [n] := by
        intro h
        rcases List.mem_append.mp h with h | h
        · exact hxl h
        · exact hxn (List.mem_singleton.mp h)
      calc (DOMLocationPointer.fromProps .undef (.nodeRef x)).appendEach
            (l ++ x :: r) (n :: ns)
          = (DOMLocationPointer.fromProps .undef (.nodeRef x)).appendEach
            ((l ++ [n]) ++ x :: r) ns := by
            simp only [DOMLocationPointer.appendEach, List.foldl_cons, hstep]
        _ = (l ++ [n]) ++ ns ++ x :: r := ih (l ++ [n]) hxl' hxns'
        _ = l ++ (n :: ns) ++ x :: r := by simp
  · intro tl x ns
    induction ns generalizing tl with
    | nil => intro _ _; simp [DOMLocationPointer.appendEach]
    | cons n ns ih =>
      intro hxtl hxns
      have hxn : x ≠ n := fun h => hxns (h ▸ List.mem_cons_self n ns)
      have hxns' : x ∉ ns := fun h => hxns (List.mem_cons_of_mem n h)
      have hstep : (DOMLocationPointer.fromProps (.nodeRef x) .undef).append
          (x :: tl) n = x :: n :: tl := by
        show (match nextSibling (x :: tl) x with
          | none => (x :: tl) ++ [n]
          | some nx => insertBefore (x :: tl) n (some nx)) = x :: n :: tl
        cases tl with
        | nil => simp [nextSibling]
        | cons y t =>
          have hxy : x ≠ y := fun h => hxtl (h ▸ List.mem_cons_self y t)
          simp [nextSibling, insertBefore, insertBeforeAux, hxy, Ne.symm hxy]
      have hxtl' : x ∉ n :: tl := by
        intro h
        rcases List.mem_cons.mp h with h | h
        · exact hxn h
        · exact hxtl h
      calc (DOMLocationPointer.fromProps (.nodeRef x) .undef).appendEach
            (x :: tl) (n :: ns)
          = (DOMLocationPointer.fromProps (.nodeRef x) .undef).appendEach
            (x :: n :: tl) ns := by
            simp only [DOMLocationPointer.appendEach, List.foldl_cons, hstep]
        _ = x :: (ns.reverse ++ n :: tl) := ih (n :: tl) hxtl' hxns'
        _ = x :: ((n :: ns).reverse ++ tl) := by simp

/-- Concrete instance of the amended appendEach ordering claim: a stable
next anchor (node 5 in [5, 6]) receives [1, 2] in order; a stable previous
anchor (node 5 in [5, 7]) receives them reversed. -/
theorem appendEach_order_amended_witness :
    (DOMLocationPointer.fromProps .undef (.nodeRef 5)).appendEach [5, 6] [1, 2]
      = [1, 2, 5, 6] ∧
    (DOMLocationPointer.fromProps (.nodeRef 5) .undef).appendEach [5, 7] [1, 2]
      = [5, 2, 1, 7] := by
  constructor
  · have h := appendEach_order_amended.2.2.1 [] [6] 5 [1, 2] (by decide) (by decide)
    simpa using h
  · have h := appendEach_order_amended.2.2.2 [7] 5 [1, 2] (by decide) (by decide)
    simpa using h

/-- C9: a pointer built from props with only a next-sibling getter uses the
insert-before-next strategy; every append re-resolves the getter against the
current child list and inserts the node exactly as Element.insertBefore with
the resolved anchor does: immediately before the anchor when the getter
returns a current child, at the end when it returns null. -/
theorem locationPointer_nextGetter_append (g : Dom → Option DNode) (dom : Dom) (n : DNode) :
    (DOMLocationPointer.fromProps .undef (.getterRef g)).strat = .beforeNext ∧
    (DOMLocationPointer.fromProps .undef (.getterRef g)).append dom n
      = insertBefore dom n (g dom) ∧
    (∀ x l r, g dom = some x → dom = l ++ x :: r → x ∉ l →
      (DOMLocationPointer.fromProps .undef (.getterRef g)).append dom n
        = l ++ n :: x :: r) ∧
    (g dom = none →
      (DOMLocationPointer.fromProps .undef (.getterRef g)).append dom n = dom ++ [n]) := by
  refine ⟨rfl, rfl, ?_, ?_⟩
  · intro x l r hg hdom hxl
    show insertBefore dom n (g dom) = l ++ n :: x :: r
    rw [hg, hdom]
    exact insertBeforeAux_eq l r n x hxl
  · intro hg
    show insertBefore dom n (g dom) = dom ++ [n]
    rw [hg]
    rfl

/-- Concrete instance of the next-getter append claim: the getter resolves to
node 5 inside [4, 5, 6], and appending 9 lands immediately before it. -/
theorem locationPointer_nextGetter_append_witness :
    (DOMLocationPointer.fromProps .undef (.getterRef (fun _ => some 5))).append
      [4, 5, 6] 9 = [4, 9, 5, 6] :=
  (locationPointer_nextGetter_append (fun _ => some 5) [4, 5, 6] 9).2.2.1
    5 [4] [6] rfl rfl (by decide)

/-- Distinct elements cannot coexist in a duplicate-free list whose members
are pairwise equal, so such a list has at most one element. -/
theorem nodup_all_eq_length_le_one {l : List Nat} (hn : l.Nodup)
    (h : ∀ a ∈ l, ∀ b ∈ l, a = b) : l.length ≤ 1 := by
  cases l with
  | nil => simp
  | cons a t =>
    cases t with
    | nil => simp
    | cons b t2 =>
      exfalso
      have hab : a = b := h a (by simp) b (by simp)
      have hnb : a ∉ b :: t2 := (List.nodup_cons.mp hn).1
      exact hnb (hab ▸ List.mem_cons_self b t2)

/-- Preservation of the engine invariant when a name with an existing
controller is overwritten by a literal, or deleted: the old controller
leaves the live set and the table entry is dropped. -/
theorem aspInv_erase (T : String → Option Nat) (L : List Nat) (O : Nat → Option String)
    (c : Nat) (tr tr' : List Act) (name : String) (old : Nat)
    (hInv : AspInv ⟨T, L, O, c, tr⟩) (hT : T name = some old) :
    AspInv ⟨upd T name none, L.erase old, O, c, tr'⟩ := by
  obtain ⟨h1, h2, h3, h4, h5⟩ := hInv
  dsimp only at h1 h2 h3 h4 h5
  refine ⟨h1.erase old, ?_, h3, ?_, ?_⟩
  · intro h hh
    exact h2 h (List.mem_of_mem_erase hh)
  · intro n h hn
    dsimp only at hn
    by_cases hne : n = name
    · subst hne; simp [upd] at hn
    · simp only [upd, if_neg hne] at hn
      exact h4 n h hn
  · intro h hh
    dsimp only at hh
    have hmem := (List.Nodup.mem_erase_iff h1).mp hh
    obtain ⟨n, hn⟩ := h5 h hmem.2
    by_cases hne : n = name
    · subst hne
      rw [hT] at hn
      exact absurd (Option.some.inj hn).symm hmem.1
    · exact ⟨n, by simp only [upd, if_neg hne]; exact hn⟩

/-- Preservation of the engine invariant when a dynamic value is bound for a
name: a fresh controller is created, owned by the name and installed in the
table (the previously tabled controller for the name, when present, having
been aborted out of the live set first). -/
theorem aspInv_bindDyn (T : String → Option Nat) (L Lb : List Nat)
    (O : Nat → Option String) (c : Nat) (tr tr' : List Act) (name : String)
    (hInv : AspInv ⟨T, L, O, c, tr⟩)
    (hb : Lb.Nodup) (hsub : ∀ h, h ∈ Lb → h ∈ L)
    (hskip : ∀ h, h ∈ Lb → ∀ n, T n = some h → n ≠ name) :
    AspInv ⟨upd T name (some c), Lb ++ [c], upd O c (some name), c + 1, tr'⟩ := by
  obtain ⟨h1, h2, h3, h4, h5⟩ := hInv
  dsimp only at h1 h2 h3 h4 h5
  have hcL : c ∉ Lb := fun hc => Nat.lt_irrefl c (h2 c (hsub c hc))
  refine ⟨?_, ?_, ?_, ?_, ?_⟩
  · rw [List.nodup_append]
    refine ⟨hb, List.nodup_singleton c, ?_⟩
    intro a ha hb2
    rw [List.mem_singleton.mp hb2] at ha
    exact hcL ha
  · intro h hh
    dsimp only at hh
    rcases List.mem_append.mp hh with hh | hh
    · exact Nat.lt_succ_of_lt (h2 h (hsub h hh))
    · rw [List.mem_singleton.mp hh]; exact Nat.lt_succ_self c
  · intro h hch
    dsimp only at hch ⊢
    have hne : h ≠ c := fun he => Nat.not_succ_le_self c (he ▸ hch)
    simp only [upd, if_neg hne]
    exact h3 h (Nat.le_of_succ_le hch)
  · intro n h hn
    dsimp only at hn ⊢
    by_cases hne : n = name
    · subst hne
      simp only [upd, if_pos rfl] at hn
      rw [← Option.some.inj hn]
      simp [upd]
    · simp only [upd, if_neg hne] at hn
      have hO := h4 n h hn
      have hhc : h ≠ c := by
        intro he
        rw [he, h3 c (Nat.le_refl c)] at hO
        exact Option.noConfusion hO
      simp only [upd, if_neg hhc]
      exact hO
  · intro h hh
    dsimp only at hh ⊢
    rcases List.mem_append.mp hh with hh | hh
    · obtain ⟨n, hn⟩ := h5 h (hsub h hh)
      have hne : n ≠ name := hskip h hh n hn
      exact ⟨n, by simp only [upd, if_neg hne]; exact hn⟩
    · rw [List.mem_singleton.mp hh]
      exact ⟨name, by simp [upd]⟩

/-- Preservation of the engine invariant by one map-source entry. -/
theorem aspInv_step (st : AspState) (op : AOp) (hInv : AspInv st) :
    AspInv (stepAOp st op) := by
  obtain ⟨T, L, O, c, tr⟩ := st
  cases op with
  | assignOp name v =>
    cases hT : T name with
    | some old =>
      cases v with
      | lit s =>
        show AspInv _
        simp only [stepAOp, setOrUpdateExistingAttribute, hT, abortController,
          setAttributeM]
        exact aspInv_erase T L O c tr _ name old hInv hT
      | asyncV =>
        simp only [stepAOp, setOrUpdateExistingAttribute, hT, abortController,
          setAttributeM]
        refine aspInv_bindDyn T L (L.erase old) O c tr _ name hInv
          (hInv.1.erase old) (fun h hh => List.mem_of_mem_erase hh) ?_
        intro h hh n hn hne
        subst hne
        rw [hT] at hn
        exact ((List.Nodup.mem_erase_iff hInv.1).mp hh).1 (Option.some.inj hn).symm
      | srcV =>
        simp only [stepAOp, setOrUpdateExistingAttribute, hT, abortController,
          setAttributeM]
        refine aspInv_bindDyn T L (L.erase old) O c tr _ name hInv
          (hInv.1.erase old) (fun h hh => List.mem_of_mem_erase hh) ?_
        intro h hh n hn hne
        subst hne
        rw [hT] at hn
        exact ((List.Nodup.mem_erase_iff hInv.1).mp hh).1 (Option.some.inj hn).symm
    | none =>
      cases v with
      | lit s =>
        simp only [stepAOp, setOrUpdateExistingAttribute, hT, setAttributeM]
        exact ⟨hInv.1, hInv.2.1, hInv.2.2.1, hInv.2.2.2.1, hInv.2.2.2.2⟩
      | asyncV =>
        simp only [stepAOp, setOrUpdateExistingAttribute, hT, setAttributeM]
        refine aspInv_bindDyn T L L O c tr _ name hInv hInv.1 (fun h hh => hh) ?_
        intro h hh n hn hne
        subst hne
        rw [hT] at hn
        exact Option.noConfusion hn
      | srcV =>
        simp only [stepAOp, setOrUpdateExistingAttribute, hT, setAttributeM]
        refine aspInv_bindDyn T L L O c tr _ name hInv hInv.1 (fun h hh => hh) ?_
        intro h hh n hn hne
        subst hne
        rw [hT] at hn
        exact Option.noConfusion hn
  | deleteOp name =>
    cases hT : T name with
    | some h =>
      simp only [stepAOp, removeAttributeM, hT, abortController]
      exact aspInv_erase T L O c tr _ name h hInv hT
    | none =>
      simp only [stepAOp, removeAttributeM, hT]
      exact ⟨hInv.1, hInv.2.1, hInv.2.2.1, hInv.2.2.2.1, hInv.2.2.2.2⟩

/-- Invariant of the engine over any run of map-source entries. -/
theorem aspInv_run (ops : List AOp) : AspInv (runAOps ops) := by
  have hgen : ∀ (l : List AOp) (st : AspState), AspInv st → AspInv (l.foldl stepAOp st) := by
    intro l
    induction l with
    | nil => intro st h; exact h
    | cons op l ih => intro st h; exact ih (stepAOp st op) (aspInv_step st op h)
  refine hgen ops initAsp ⟨List.nodup_nil, ?_, ?_, ?_, ?_⟩
  · intro h hh; exact absurd hh (List.not_mem_nil h)
  · intro h _; rfl
  · intro name h hn; exact Option.noConfusion hn
  · intro h hh; exact absurd hh (List.not_mem_nil h)

/-- C6: over any sequence of map-source entries, at most one live
subscription or pending async exists per aspect name at any time, and
whenever a name with an existing cancellation handle is assigned again,
setOrUpdateExistingAttribute aborts the old handle first: the trace extends
with the abort strictly before anything done for the new value (its
subscription, continuation registration, or literal application). -/
theorem aspectBinding_supersede_cancelsFirst :
    (∀ (ops : List AOp) (name : String),
      (liveOwnedBy (runAOps ops) name).length ≤ 1) ∧
    (∀ (st : AspState) (name : String) (v : BVal) (old : Nat),
      st.table name = some old →
      ∃ δ, (setOrUpdateExistingAttribute name v st).trace
        = st.trace ++ Act.abortA old :: δ) := by
  constructor
  · intro ops name
    obtain ⟨h1, h2, h3, h4, h5⟩ := aspInv_run ops
    apply nodup_all_eq_length_le_one (h1.filter _)
    intro a ha b hb
    have hamem := List.mem_filter.mp ha
    have hbmem := List.mem_filter.mp hb
    have hao : (runAOps ops).owner a = some name := eq_of_beq hamem.2
    have hbo : (runAOps ops).owner b = some name := eq_of_beq hbmem.2
    obtain ⟨na, hna⟩ := h5 a hamem.1
    obtain ⟨nb, hnb⟩ := h5 b hbmem.1
    have hna' : na = name := by
      have := h4 na a hna
      rw [hao] at this
      exact (Option.some.inj this).symm
    have hnb' : nb = name := by
      have := h4 nb b hnb
      rw [hbo] at this
      exact (Option.some.inj this).symm
    rw [hna'] at hna
    rw [hnb'] at hnb
    rw [hna] at hnb
    exact Option.some.inj hnb
  · intro st name v old hT
    obtain ⟨T, L, O, c, tr⟩ := st
    dsimp only at hT
    cases v with
    | lit s =>
      refine ⟨[Act.applyA name], ?_⟩
      simp [setOrUpdateExistingAttribute, hT, abortController, setAttributeM]
    | asyncV =>
      refine ⟨[Act.subscribeA c name], ?_⟩
      simp [setOrUpdateExistingAttribute, hT, abortController, setAttributeM]
    | srcV =>
      refine ⟨[Act.subscribeA c name], ?_⟩
      simp [setOrUpdateExistingAttribute, hT, abortController, setAttributeM]

/-- Concrete instance of the supersede claim: binding streaming sources to
attribute x twice leaves at most one live handle for x, and the rebinding
trace aborts controller 0 before anything else. -/
theorem aspectBinding_supersede_cancelsFirst_witness :
    (liveOwnedBy (runAOps [.assignOp "x" .srcV, .assignOp "x" .srcV]) "x").length ≤ 1 ∧
    ∃ δ, (setOrUpdateExistingAttribute "x" .srcV (runAOps [.assignOp "x" .srcV])).trace
      = (runAOps [.assignOp "x" .srcV]).trace ++ Act.abortA 0 :: δ := by
  constructor
  · exact aspectBinding_supersede_cancelsFirst.1
      [.assignOp "x" .srcV, .assignOp "x" .srcV] "x"
  · exact aspectBinding_supersede_cancelsFirst.2
      (runAOps [.assignOp "x" .srcV]) "x" .srcV 0 rfl

/-- Replacing the stored source of a present node makes its lookup return the
replacement. -/
theorem lookup_srcSet_self (t : List (DNode × NodeSource)) (node : DNode)
    (src s0 : NodeSource) (h : t.lookup node = some s0) :
    (srcSet t node src).lookup node = some src := by
  induction t with
  | nil => simp [List.lookup] at h
  | cons p t ih =>
    obtain ⟨k, v⟩ := p
    have hhead : (fun p : DNode × NodeSource => if p.1 = node then (node, src) else p) (k, v)
        = if k = node then (node, src) else (k, v) := rfl
    by_cases hk : k = node
    · subst hk
      simp only [srcSet, List.map_cons, hhead, if_pos rfl]
      simp [List.lookup]
    · have hk2 : (node == k) = false := by simp [Ne.symm hk]
      simp only [List.lookup, hk2] at h
      simp only [srcSet, List.map_cons, hhead, if_neg hk]
      simp only [List.lookup, hk2]
      exact ih h

/-- Replacing the stored source of a node leaves lookups of other nodes
unchanged. -/
theorem lookup_srcSet_other (t : List (DNode × NodeSource)) (node node2 : DNode)
    (src : NodeSource) (h : node2 ≠ node) :
    (srcSet t node src).lookup node2 = t.lookup node2 := by
  induction t with
  | nil => simp [srcSet]
  | cons p t ih =>
    obtain ⟨k, v⟩ := p
    by_cases hk : k = node
    · subst hk
      have hk2 : (node2 == k) = false := by simp [h]
      simp only [srcSet, List.map_cons, if_pos rfl]
      simp only [List.lookup, hk2]
      simpa [srcSet] using ih
    · simp only [srcSet, List.map_cons, if_neg hk]
      by_cases hk3 : k = node2
      · subst hk3
        simp [List.lookup]
      · have hk4 : (node2 == k) = false := by simp [Ne.symm hk3]
        simp only [List.lookup, hk4]
        simpa [srcSet] using ih

/-- Replacing the stored source of a node does not change the key list. -/
theorem srcSet_keys (t : List (DNode × NodeSource)) (node : DNode) (src : NodeSource) :
    (srcSet t node src).map Prod.fst = t.map Prod.fst := by
  induction t with
  | nil => rfl
  | cons p t ih =>
    obtain ⟨k, v⟩ := p
    have hhead : (fun p : DNode × NodeSource => if p.1 = node then (node, src) else p) (k, v)
        = if k = node then (node, src) else (k, v) := rfl
    by_cases hk : k = node
    · subst hk
      simp only [srcSet, List.map_cons, hhead, if_pos rfl] at ih ⊢
      simp [ih]
    · simp only [srcSet, List.map_cons, hhead, if_neg hk] at ih ⊢
      rw [ih]

/-- A node that has no stored source is not among the keys. -/
theorem notMem_keys_of_lookup_none (t : List (DNode × NodeSource)) (node : DNode)
    (h : t.lookup node = none) : node ∉ t.map Prod.fst := by
  induction t with
  | nil => simp
  | cons p t ih =>
    obtain ⟨k, v⟩ := p
    intro hmem
    by_cases hk : k = node
    · subst hk
      simp [List.lookup] at h
    · have hk2 : (node == k) = false := by simp [Ne.symm hk]
      simp only [List.lookup, hk2] at h
      rcases List.mem_cons.mp hmem with hmem | hmem
      · exact hk hmem.symm
      · exact ih h hmem

/-- Appending a fresh entry makes its lookup return the new source. -/
theorem lookup_append_fresh (t : List (DNode × NodeSource)) (node : DNode)
    (src : NodeSource) (h : t.lookup node = none) :
    (t ++ [(node, src)]).lookup node = some src := by
  induction t with
  | nil => simp [List.lookup]
  | cons p t ih =>
    obtain ⟨k, v⟩ := p
    by_cases hk : k = node
    · subst hk
      simp [List.lookup] at h
    · have hk2 : (node == k) = false := by simp [Ne.symm hk]
      simp only [List.lookup, hk2] at h
      simp only [List.cons_append, List.lookup, hk2]
      exact ih h

/-- Appending an entry for one node leaves lookups of other nodes
unchanged. -/
theorem lookup_append_other (t : List (DNode × NodeSource)) (node node2 : DNode)
    (src : NodeSource) (h : node2 ≠ node) :
    (t ++ [(node, src)]).lookup node2 = t.lookup node2 := by
  induction t with
  | nil =>
    have hk2 : (node2 == node) = false := by simp [h]
    simp [List.lookup, hk2]
  | cons p t ih =>
    obtain ⟨k, v⟩ := p
    by_cases hk : k = node2
    · subst hk
      simp [List.lookup]
    · have hk2 : (node2 == k) = false := by simp [Ne.symm hk]
      simp only [List.cons_append, List.lookup, hk2]
      exact ih

/-- Preservation of the connectedness invariant by one observe call or one
subscription disposal. -/
theorem connInv_step (st : ConnState) (op : COp) (h : ConnInv st) :
    ConnInv (stepCOp st op) := by
  obtain ⟨hkeys, hobs⟩ := h
  cases op with
  | obs node sid =>
    cases hl : st.sources.lookup node with
    | some src =>
      simp only [stepCOp, observeOp, hl]
      constructor
      · show ((srcSet st.sources node _).map Prod.fst).Nodup
        rw [srcSet_keys]
        exact hkeys
      · intro node2
        by_cases hn : node2 = node
        · subst hn
          have hlook := lookup_srcSet_self st.sources node2
            ⟨src.subs ++ [sid], if src.subs.isEmpty then true else src.observing⟩ src hl
          simp only [observingOf, subsOf, hlook]
          have hemp : (src.subs ++ [sid]).isEmpty = false := by
            cases src.subs <;> rfl
          rw [hemp]
          cases he : src.subs.isEmpty with
          | true => simp
          | false =>
            have hthis := hobs node2
            simp only [observingOf, subsOf, hl, he] at hthis
            simp [hthis]
        · have hlook := lookup_srcSet_other st.sources node node2
            ⟨src.subs ++ [sid], if src.subs.isEmpty then true else src.observing⟩ hn
          have hthis := hobs node2
          simp only [observingOf, subsOf] at hthis ⊢
          rw [hlook]
          exact hthis
    | none =>
      simp only [stepCOp, observeOp, hl]
      constructor
      · show ((st.sources ++ [(node, (⟨[sid], true⟩ : NodeSource))]).map Prod.fst).Nodup
        rw [List.map_append]
        rw [List.nodup_append]
        refine ⟨hkeys, List.nodup_singleton node, ?_⟩
        intro a ha hb
        simp only [List.map_cons, List.map_nil, List.mem_singleton] at hb
        subst hb
        exact notMem_keys_of_lookup_none st.sources a hl ha
      · intro node2
        by_cases hn : node2 = node
        · subst hn
          have hlook := lookup_append_fresh st.sources node2 ⟨[sid], true⟩ hl
          simp [observingOf, subsOf, hlook]
        · have hlook := lookup_append_other st.sources node node2 ⟨[sid], true⟩ hn
          have hthis := hobs node2
          simp only [observingOf, subsOf] at hthis ⊢
          rw [hlook]
          exact hthis
  | disp node sid =>
    cases hl : st.sources.lookup node with
    | some src =>
      simp only [stepCOp, disposeOp, hl]
      constructor
      · show ((srcSet st.sources node _).map Prod.fst).Nodup
        rw [srcSet_keys]
        exact hkeys
      · intro node2
        by_cases hn : node2 = node
        · subst hn
          have hlook := lookup_srcSet_self st.sources node2
            ⟨src.subs.erase sid,
              if (src.subs.erase sid).isEmpty then false else src.observing⟩ src hl
          simp only [observingOf, subsOf, hlook]
          cases he : (src.subs.erase sid).isEmpty with
          | true => simp [he]
          | false =>
            have hsubs : src.subs.isEmpty = false := by
              cases hs : src.subs with
              | nil => rw [hs] at he; simp [List.erase] at he
              | cons a t => rfl
            have hthis := hobs node2
            simp only [observingOf, subsOf, hl, hsubs] at hthis
            simp [he, hthis]
        · have hlook := lookup_srcSet_other st.sources node node2
            ⟨src.subs.erase sid,
              if (src.subs.erase sid).isEmpty then false else src.observing⟩ hn
          have hthis := hobs node2
          simp only [observingOf, subsOf] at hthis ⊢
          rw [hlook]
          exact hthis
    | none =>
      simp only [stepCOp, disposeOp, hl]
      exact ⟨hkeys, hobs⟩

/-- Invariant of the connectedness sharing layer over any run. -/
theorem connInv_run (ops : List COp) : ConnInv (runCOps ops) := by
  have hgen : ∀ (l : List COp) (st : ConnState), ConnInv st → ConnInv (l.foldl stepCOp st) := by
    intro l
    induction l with
    | nil => intro st h; exact h
    | cons op l ih => intro st h; exact ih (stepCOp st op) (connInv_step st op h)
  refine hgen ops ⟨[]⟩ ⟨List.nodup_nil, ?_⟩
  intro node
  rfl

/-- C10: over any sequence of observe calls and subscription disposals, every
node keys at most one backing observation source; for every node, a
ConnectionObserver is observing it exactly while the node has at least one
subscriber (it starts with the first subscribe and disconnects when the last
subscription is disposed); and a connection-change notification for a target
node is dispatched to exactly the current subscribers of that node. -/
theorem connectedness_sharing_invariants :
    (∀ ops : List COp, ((runCOps ops).sources.map Prod.fst).Nodup) ∧
    (∀ (ops : List COp) (node : DNode),
      observingOf (runCOps ops) node = !(subsOf (runCOps ops) node).isEmpty) ∧
    (∀ (st : ConnState) (target : DNode) (connected : Bool),
      dispatchConnection st target connected
        = (subsOf st target).map (fun sid => (sid, connected))) := by
  refine ⟨fun ops => (connInv_run ops).1, fun ops node => (connInv_run ops).2 node, ?_⟩
  intro st target connected
  cases hl : st.sources.lookup target <;> simp [dispatchConnection, subsOf, hl]
